import Mathlib

set_option maxHeartbeats 1000000
set_option maxRecDepth 4000

namespace HubspotMatch

/-!
Shallow embedding of the organization fuzzy-matching core of the repository:
`normalizeCompanyName`, `calculateStringSimilarity` and `levenshteinDistance`
from src/lib/utils.ts, and `findBestMatch` from src/app/api/create-user/route.ts.

Strings are modelled as `List Char`.  JavaScript case folding is modelled on the
ASCII range (all inputs exercised by the claims are ASCII).  Scores, which the
source computes on JS numbers, are modelled as exact rationals.
-/

/-- ASCII model of `String.prototype.toLowerCase`: code points 65..90
(`A`..`Z`) are shifted by 32 to 97..122 (`a`..`z`). -/
def jsLower (c : Char) : Char :=
  if 65 ≤ c.toNat ∧ c.toNat ≤ 90 then Char.ofNat (c.toNat + 32) else c

/-- The ECMAScript WhiteSpace/LineTerminator set recognised by `trim` and by
the regex class `\s`, by code point: TAB LF VT FF CR SP NBSP ZWNBSP OGHAM,
the 0x2000..0x200A spaces, LS PS NNBSP MMSP and IDEOGRAPHIC SPACE. -/
def isJsWS (c : Char) : Bool :=
  decide (c.toNat = 9 ∨ c.toNat = 10 ∨ c.toNat = 11 ∨ c.toNat = 12 ∨ c.toNat = 13 ∨
    c.toNat = 32 ∨ c.toNat = 0xA0 ∨ c.toNat = 0xFEFF ∨ c.toNat = 0x1680 ∨
    (0x2000 ≤ c.toNat ∧ c.toNat ≤ 0x200A) ∨ c.toNat = 0x2028 ∨ c.toNat = 0x2029 ∨
    c.toNat = 0x202F ∨ c.toNat = 0x205F ∨ c.toNat = 0x3000)

/-- The ECMAScript word-character class `\w = [A-Za-z0-9_]` (code points
97..122, 65..90, 48..57 and 95), which defines the word boundary `\b`. -/
def isWordChar (c : Char) : Bool :=
  decide ((97 ≤ c.toNat ∧ c.toNat ≤ 122) ∨ (65 ≤ c.toNat ∧ c.toNat ≤ 90) ∨
    (48 ≤ c.toNat ∧ c.toNat ≤ 57) ∨ c.toNat = 95)

/-- ECMAScript LineTerminator set (LF CR LS PS): the characters the regex
wildcard `.` does not match. -/
def isLineTerm (c : Char) : Bool :=
  decide (c.toNat = 10 ∨ c.toNat = 13 ∨ c.toNat = 0x2028 ∨ c.toNat = 0x2029)

/-- `String.prototype.trim`: drop leading and trailing whitespace. -/
def trimList (s : List Char) : List Char :=
  ((s.dropWhile isJsWS).reverse.dropWhile isJsWS).reverse

/-- Worker for `collapseWS`; the flag records whether the previous character
was whitespace (i.e. whether we are inside a run already replaced). -/
def collapseAux : Bool → List Char → List Char
  | _, [] => []
  | inWS, c :: cs =>
    if isJsWS c then
      if inWS then collapseAux true cs else ' ' :: collapseAux true cs
    else c :: collapseAux false cs

/-- `s.replace(/\s+/g, ' ')`: every maximal run of whitespace becomes a single
space. -/
def collapseWS (s : List Char) : List Char := collapseAux false s

/-- Word-character test lifted to the optional characters adjacent to a match
position; the edge of the string counts as a non-word character, exactly as in
the ECMAScript definition of `\b`. -/
def isWordOpt : Option Char → Bool
  | none => false
  | some c => isWordChar c

/-- Match of one suffix character against one text character, under the `i`
flag.  The source interpolates each suffix verbatim into `new RegExp`, so a
`.` inside a suffix such as `inc.` is the regex wildcard (any character except
a line terminator), not a literal period; a letter matches case-insensitively. -/
def patCharMatches (p c : Char) : Bool :=
  if p = '.' then !(isLineTerm c) else jsLower c == p

/-- Pointwise match of a suffix literal against a block of text of the same
length. -/
def patMatches : List Char → List Char → Bool
  | [], [] => true
  | p :: ps, c :: cs => patCharMatches p c && patMatches ps cs
  | _, _ => false

/-- One execution of `normalized.replace(new RegExp("\\b" + suffix + "\\b$", "i"), '')`.
The pattern is end-anchored and of fixed length (each element consumes exactly
one character), so the only span the regex can match is the final
`suf.length` characters; `\b` holds at a position iff exactly one of the two
adjacent characters is a word character, the string edge counting as
non-word. -/
def stripOnce (suf s : List Char) : List Char :=
  let k := suf.length
  let fr := s.take (s.length - k)
  let tl := s.drop (s.length - k)
  if k ≤ s.length ∧ patMatches suf tl = true ∧
      isWordOpt fr.getLast? ≠ isWordOpt tl.head? ∧ isWordOpt tl.getLast? = true
    then fr else s

/-- The fixed suffix vocabulary, in source order. -/
def suffixes : List (List Char) :=
  (["inc", "inc.", "corporation", "corp", "corp.", "company", "co", "co.",
    "ltd", "ltd.", "limited", "llc", "l.l.c.", "llp", "l.l.p.",
    "enterprises", "group", "holdings", "international", "intl"]).map String.data

/-- The `for (const suffix of suffixes)` loop: a single pass over the
vocabulary in order, each step replacing the end-anchored match (if any) and
re-trimming. -/
def stripTrimPass (s : List Char) : List Char :=
  suffixes.foldl (fun acc suf => trimList (stripOnce suf acc)) s

/-- `normalizeCompanyName` from src/lib/utils.ts: trim, lowercase, one
suffix-stripping pass, collapse whitespace. -/
def normalizeCompanyName (name : List Char) : List Char :=
  collapseWS (stripTrimPass (List.map jsLower (trimList name)))

/-- Amended-specification model of one stripping step, written from the
corrected prose: the string ends in a block of `suf.length` characters that
matches the suffix pattern pointwise (`.` a single-character wildcard, letters
case-insensitive), the character just before that block (if any) is not a word
character, and the final character of the string is a word character; in that
case the block is removed. -/
def stripOnceSpec (suf s : List Char) : List Char :=
  let k := suf.length
  if k ≤ s.length ∧
      ((List.zip suf (s.drop (s.length - k))).all fun pc => patCharMatches pc.1 pc.2) = true ∧
      (match (s.take (s.length - k)).getLast? with
        | none => true
        | some c => !(isWordChar c)) = true ∧
      (match s.getLast? with
        | none => false
        | some c => isWordChar c) = true
  then s.take (s.length - k) else s

/-- Amended-specification model of the normalizer: lowercase and trim, then a
single pass over the suffix vocabulary in its listed order, stripping at most
one end-anchored pattern match per suffix and re-trimming, and finally
collapsing whitespace runs. -/
def normalizeAmendedSpec (name : List Char) : List Char :=
  collapseWS (suffixes.foldl (fun acc suf => trimList (stripOnceSpec suf acc))
    (List.map jsLower (trimList name)))

/-- A suffix occurs literally as a trailing whole word: the string ends with
the suffix characters themselves and the character just before them (if any)
is not a word character.  This is the reading of claim C1, where the suffixes
(periods included) are treated as literal tokens. -/
def trailingWholeWord (suf s : List Char) : Bool :=
  suf.isSuffixOf s &&
    (match (s.take (s.length - suf.length)).getLast? with
      | none => true
      | some c => !(isWordChar c))

/-- Claim C1's procedure: repeatedly strip a trailing whole-word suffix of the
vocabulary and re-trim, until none remains.  Fuel bounds the iteration; every
strip removes at least one character, so `s.length + 1` steps suffice. -/
def stripClaimedLoop : ℕ → List Char → List Char
  | 0, s => s
  | Nat.succ fuel, s =>
    match suffixes.find? (fun suf => trailingWholeWord suf s) with
    | some suf => stripClaimedLoop fuel (trimList (s.take (s.length - suf.length)))
    | none => s

/-- The normalizer exactly as claim C1 words it: lowercase and trim, strip
trailing whole-word suffixes to a fixpoint with re-trimming, collapse
whitespace. -/
def normalizeClaimed (name : List Char) : List Char :=
  collapseWS (stripClaimedLoop (name.length + 1) (List.map jsLower (trimList name)))

/-- The `===`-indicator from the DP inner loop: 0 if the two characters are
equal, 1 otherwise. -/
def ind (x y : Char) : ℕ := if x = y then 0 else 1

/-- Reference recurrence for the Levenshtein distance, peeling characters from
the front.  The DP matrix of the source is proved equal to this below. -/
def levRec : List Char → List Char → ℕ
  | [], ys => ys.length
  | x :: xs, [] => (x :: xs).length
  | x :: xs, y :: ys =>
    min (levRec xs ys + ind x y) (min (levRec (x :: xs) ys + 1) (levRec xs (y :: ys) + 1))
termination_by a b => (a.length, b.length)

/-- Inner loop `for (i = 1; i <= str1.length; i++)` of `levenshteinDistance`:
build the remainder of row `j` given the characters of `str1` still to
process, the previous row's entries from column `i-1` on (`diag :: ps`), and
the entry just written at column `i-1` (`cur`). -/
def rowAux (c2 : Char) : List Char → ℕ → List ℕ → ℕ → List ℕ
  | [], _, _, _ => []
  | _ :: _, _, [], _ => []
  | x :: xs, diag, p :: ps, cur =>
    let v := min (cur + 1) (min (p + 1) (diag + ind x c2))
    v :: rowAux c2 xs p ps v

/-- Row `j` of the matrix from row `j-1`: column 0 holds `j`, the rest is the
inner loop. -/
def nextRow (s1 : List Char) (c2 : Char) (j : ℕ) (prev : List ℕ) : List ℕ :=
  match prev with
  | [] => []
  | d :: ps => j :: rowAux c2 s1 d ps j

/-- `levenshteinDistance` from src/lib/utils.ts: fill the DP matrix row by row
(row 0 is `0..str1.length`, row `j` is produced from row `j-1`) and return the
bottom-right entry. -/
def levenshteinDistance (str1 str2 : List Char) : ℕ :=
  (str2.foldl
    (fun (st : ℕ × List ℕ) c2 => (st.1 + 1, nextRow str1 c2 (st.1 + 1) st.2))
    (0, List.range (str1.length + 1))).2.getLast?.getD 0

/-- `calculateStringSimilarity` from src/lib/utils.ts.  The JS number result
is modelled as an exact rational. -/
def calculateStringSimilarity (str1 str2 : List Char) : ℚ :=
  let s1 := trimList (List.map jsLower str1)
  let s2 := trimList (List.map jsLower str2)
  if s1 = s2 then 1
  else
    let longer := if s1.length > s2.length then s1 else s2
    let shorter := if s1.length > s2.length then s2 else s1
    if longer.length = 0 then 1
    else ((longer.length : ℚ) - (levenshteinDistance longer shorter : ℚ)) / (longer.length : ℚ)

/-- The company records consumed by `findBestMatch` (interface `Company` of
src/app/api/create-user/route.ts). -/
structure Company where
  id : List Char
  name : List Char
  domain : Option (List Char) := none
deriving DecidableEq, Repr

/-- Score of one candidate inside the `for (const company of companies)` loop
of `findBestMatch`: similarity of the normalized search term and the
normalized candidate name, overridden to 1 on exact equality, else raised to
at least 9/10 when the candidate name starts with the search term. -/
def companyScore (normalizedSearch : List Char) (c : Company) : ℚ :=
  let normalizedCompanyName := normalizeCompanyName c.name
  let similarity := calculateStringSimilarity normalizedSearch normalizedCompanyName
  if normalizedCompanyName = normalizedSearch then 1
  else if normalizedSearch.isPrefixOf normalizedCompanyName then max similarity (9/10)
  else similarity

/-- The `for (const company of companies)` loop of `findBestMatch`: update
`(bestMatch, bestScore)` whenever the current candidate's score is strictly
greater. -/
def bestFold (normalizedSearch : List Char) (init : Company × ℚ) (companies : List Company) :
    Company × ℚ :=
  companies.foldl
    (fun b c =>
      if companyScore normalizedSearch c > b.2 then (c, companyScore normalizedSearch c) else b)
    init

/-- `findBestMatch` from src/app/api/create-user/route.ts: iterate over the
candidates keeping the strictly best score (initial best: the first candidate
with score 0), and return the best candidate only if its score reaches the
6/10 threshold. -/
def findBestMatch (companies : List Company) (searchTerm : List Char) : Option Company :=
  match companies with
  | [] => none
  | c0 :: _ =>
    let normalizedSearch := normalizeCompanyName searchTerm
    let best := bestFold normalizedSearch (c0, 0) companies
    if best.2 ≥ 6/10 then some best.1 else none

/-- The maximum score `findBestMatch` computes over a candidate list (0 when
the list is empty); the quantity the spec's acceptance condition refers to. -/
def maxScoreOf (companies : List Company) (searchTerm : List Char) : ℚ :=
  companies.foldl (fun m c => max m (companyScore (normalizeCompanyName searchTerm) c)) 0

/-- The intended contents of columns `1..` of a matrix row: the distances from
the successive extensions of `u` by the remaining characters to `p`. -/
def rowSpec (u : List Char) : List Char → List Char → List ℕ
  | [], _ => []
  | x :: xs, p => levRec (u ++ [x]) p :: rowSpec (u ++ [x]) xs p

/-- The defensive case-fold/trim `calculateStringSimilarity` applies to both
arguments before comparing. -/
def foldedForm (s : List Char) : List Char := trimList (List.map jsLower s)

/-- Length of the longer of the two folded strings. -/
def longerLen (a b : List Char) : ℕ := max (foldedForm a).length (foldedForm b).length

/-!
Levenshtein theory: the reference recurrence `levRec` is the least number of
single-character edit operations, and the DP matrix of the source computes it.
-/

@[simp] theorem levRec_nil (ys : List Char) : levRec [] ys = ys.length := by
  rw [levRec]

@[simp] theorem levRec_cons_nil (x : Char) (xs : List Char) :
    levRec (x :: xs) [] = xs.length + 1 := by
  rw [levRec]
  rfl

@[simp] theorem levRec_nil_right (a : List Char) : levRec a [] = a.length := by
  cases a with
  | nil => simp
  | cons x xs => simp

theorem levRec_cons_cons (x : Char) (xs : List Char) (y : Char) (ys : List Char) :
    levRec (x :: xs) (y :: ys) =
      min (levRec xs ys + ind x y)
        (min (levRec (x :: xs) ys + 1) (levRec xs (y :: ys) + 1)) := by
  rw [levRec]

theorem ind_le_one (x y : Char) : ind x y ≤ 1 := by
  unfold ind
  split <;> omega

@[simp] theorem ind_self (x : Char) : ind x x = 0 := by
  simp [ind]

/-- An edit script of `n` single-character operations transforming the first
string into the second, written in canonical left-to-right order: at each
step, either copy a character unchanged (free), substitute it, delete it, or
insert a character of the target. -/
inductive EditSeq : List Char → List Char → ℕ → Prop
  | nil : EditSeq [] [] 0
  | copy (c : Char) {a b : List Char} {n : ℕ} : EditSeq a b n → EditSeq (c :: a) (c :: b) n
  | subst (c d : Char) {a b : List Char} {n : ℕ} : EditSeq a b n → EditSeq (c :: a) (d :: b) (n + 1)
  | del (c : Char) {a b : List Char} {n : ℕ} : EditSeq a b n → EditSeq (c :: a) b (n + 1)
  | ins (d : Char) {a b : List Char} {n : ℕ} : EditSeq a b n → EditSeq a (d :: b) (n + 1)

theorem editSeq_nil_left (b : List Char) : EditSeq [] b b.length := by
  induction b with
  | nil => exact EditSeq.nil
  | cons y ys ih => exact EditSeq.ins y ih

theorem editSeq_nil_right (a : List Char) : EditSeq a [] a.length := by
  induction a with
  | nil => exact EditSeq.nil
  | cons x xs ih => exact EditSeq.del x ih

/-- The value of the recurrence is realised by an edit script. -/
theorem editSeq_levRec (a b : List Char) : EditSeq a b (levRec a b) := by
  induction a generalizing b with
  | nil =>
    simpa using editSeq_nil_left b
  | cons x xs ih =>
    induction b with
    | nil => simpa using editSeq_nil_right (x :: xs)
    | cons y ys ihb =>
      have h1 : EditSeq (x :: xs) (y :: ys) (levRec xs ys + ind x y) := by
        by_cases hxy : x = y
        · subst hxy
          simpa using EditSeq.copy x (ih ys)
        · have : ind x y = 1 := by simp [ind, hxy]
          rw [this]
          exact EditSeq.subst x y (ih ys)
      have h2 : EditSeq (x :: xs) (y :: ys) (levRec (x :: xs) ys + 1) :=
        EditSeq.ins y ihb
      have h3 : EditSeq (x :: xs) (y :: ys) (levRec xs (y :: ys) + 1) :=
        EditSeq.del x (ih (y :: ys))
      have hcases :
          levRec (x :: xs) (y :: ys) = levRec xs ys + ind x y ∨
          levRec (x :: xs) (y :: ys) = levRec (x :: xs) ys + 1 ∨
          levRec (x :: xs) (y :: ys) = levRec xs (y :: ys) + 1 := by
        rw [levRec_cons_cons]
        omega
      rcases hcases with h | h | h <;> rw [h]
      · exact h1
      · exact h2
      · exact h3

theorem levRec_cons_left_le (c : Char) (a b : List Char) :
    levRec (c :: a) b ≤ levRec a b + 1 := by
  cases b with
  | nil => simp
  | cons y ys =>
    rw [levRec_cons_cons]
    exact le_trans (min_le_right _ _) (le_trans (min_le_right _ _) (by omega))

theorem levRec_cons_right_le (d : Char) (a b : List Char) :
    levRec a (d :: b) ≤ levRec a b + 1 := by
  cases a with
  | nil => simp
  | cons x xs =>
    rw [levRec_cons_cons]
    exact le_trans (min_le_right _ _) (le_trans (min_le_left _ _) (by omega))

/-- The recurrence value is a lower bound on the length of every edit
script. -/
theorem levRec_le_of_editSeq {a b : List Char} {n : ℕ} (h : EditSeq a b n) :
    levRec a b ≤ n := by
  induction h with
  | nil => simp
  | copy c h ih =>
    rename_i a' b' n'
    calc levRec (c :: a') (c :: b') ≤ levRec a' b' + ind c c := by
          rw [levRec_cons_cons]; exact min_le_left _ _
    _ ≤ n' := by simpa using ih
  | subst c d h ih =>
    rename_i a' b' n'
    calc levRec (c :: a') (d :: b') ≤ levRec a' b' + ind c d := by
          rw [levRec_cons_cons]; exact min_le_left _ _
    _ ≤ n' + 1 := by
          have := ind_le_one c d
          omega
  | del c h ih =>
    rename_i a' b' n'
    calc levRec (c :: a') b' ≤ levRec a' b' + 1 := levRec_cons_left_le c a' b'
    _ ≤ n' + 1 := by omega
  | ins d h ih =>
    rename_i a' b' n'
    calc levRec a' (d :: b') ≤ levRec a' b' + 1 := levRec_cons_right_le d a' b'
    _ ≤ n' + 1 := by omega

/-- The recurrence computes exactly the minimum number of single-character
insertions, deletions and substitutions transforming one string into the
other. -/
theorem levRec_isLeast (a b : List Char) :
    IsLeast {n : ℕ | EditSeq a b n} (levRec a b) :=
  ⟨editSeq_levRec a b, fun _ h => levRec_le_of_editSeq h⟩

theorem EditSeq.swap {a b : List Char} {n : ℕ} (h : EditSeq a b n) : EditSeq b a n := by
  induction h with
  | nil => exact EditSeq.nil
  | copy c _ ih => exact EditSeq.copy c ih
  | subst c d _ ih => exact EditSeq.subst d c ih
  | del c _ ih => exact EditSeq.ins c ih
  | ins d _ ih => exact EditSeq.del d ih

theorem levRec_symm (a b : List Char) : levRec a b = levRec b a := by
  apply le_antisymm
  · exact levRec_le_of_editSeq (editSeq_levRec b a).swap
  · exact levRec_le_of_editSeq (editSeq_levRec a b).swap

theorem EditSeq.snoc_copy {a b : List Char} {n : ℕ} (c : Char) (h : EditSeq a b n) :
    EditSeq (a ++ [c]) (b ++ [c]) n := by
  induction h with
  | nil => exact EditSeq.copy c EditSeq.nil
  | copy e _ ih => simpa using EditSeq.copy e (by simpa using ih)
  | subst e f _ ih => simpa using EditSeq.subst e f (by simpa using ih)
  | del e _ ih => simpa using EditSeq.del e (by simpa using ih)
  | ins f _ ih => simpa using EditSeq.ins f (by simpa using ih)

theorem EditSeq.snoc_subst {a b : List Char} {n : ℕ} (c d : Char) (h : EditSeq a b n) :
    EditSeq (a ++ [c]) (b ++ [d]) (n + 1) := by
  induction h with
  | nil => exact EditSeq.subst c d EditSeq.nil
  | copy e _ ih => simpa using EditSeq.copy e (by simpa using ih)
  | subst e f _ ih => simpa using EditSeq.subst e f (by simpa using ih)
  | del e _ ih => simpa using EditSeq.del e (by simpa using ih)
  | ins f _ ih => simpa using EditSeq.ins f (by simpa using ih)

theorem EditSeq.snoc_del {a b : List Char} {n : ℕ} (c : Char) (h : EditSeq a b n) :
    EditSeq (a ++ [c]) b (n + 1) := by
  induction h with
  | nil => exact EditSeq.del c EditSeq.nil
  | copy e _ ih => simpa using EditSeq.copy e (by simpa using ih)
  | subst e f _ ih => simpa using EditSeq.subst e f (by simpa using ih)
  | del e _ ih => simpa using EditSeq.del e (by simpa using ih)
  | ins f _ ih => simpa using EditSeq.ins f (by simpa using ih)

theorem EditSeq.snoc_ins {a b : List Char} {n : ℕ} (d : Char) (h : EditSeq a b n) :
    EditSeq a (b ++ [d]) (n + 1) := by
  induction h with
  | nil => exact EditSeq.ins d EditSeq.nil
  | copy e _ ih => simpa using EditSeq.copy e (by simpa using ih)
  | subst e f _ ih => simpa using EditSeq.subst e f (by simpa using ih)
  | del e _ ih => simpa using EditSeq.del e (by simpa using ih)
  | ins f _ ih => simpa using EditSeq.ins f (by simpa using ih)

theorem EditSeq.rev {a b : List Char} {n : ℕ} (h : EditSeq a b n) :
    EditSeq a.reverse b.reverse n := by
  induction h with
  | nil => exact EditSeq.nil
  | copy c _ ih => simpa [List.reverse_cons] using ih.snoc_copy c
  | subst c d _ ih => simpa [List.reverse_cons] using ih.snoc_subst c d
  | del c _ ih => simpa [List.reverse_cons] using ih.snoc_del c
  | ins d _ ih => simpa [List.reverse_cons] using ih.snoc_ins d

theorem levRec_rev (a b : List Char) : levRec a.reverse b.reverse = levRec a b := by
  apply le_antisymm
  · exact levRec_le_of_editSeq (editSeq_levRec a b).rev
  · have := levRec_le_of_editSeq (editSeq_levRec a.reverse b.reverse).rev
    simpa using this

/-- The recurrence read off at the back of both strings: exactly the step the
DP inner loop performs. -/
theorem levRec_snoc_snoc (u v : List Char) (x y : Char) :
    levRec (u ++ [x]) (v ++ [y]) =
      min (levRec u v + ind x y)
        (min (levRec (u ++ [x]) v + 1) (levRec u (v ++ [y]) + 1)) := by
  have h0 : levRec (u ++ [x]) (v ++ [y]) = levRec (x :: u.reverse) (y :: v.reverse) := by
    rw [← levRec_rev (u ++ [x]) (v ++ [y])]
    simp
  have h1 : levRec u.reverse v.reverse = levRec u v := levRec_rev u v
  have h2 : levRec (x :: u.reverse) v.reverse = levRec (u ++ [x]) v := by
    have := levRec_rev (u ++ [x]) v
    simpa using this
  have h3 : levRec u.reverse (y :: v.reverse) = levRec u (v ++ [y]) := by
    have := levRec_rev u (v ++ [y])
    simpa using this
  rw [h0, levRec_cons_cons, h1, h2, h3]

@[simp] theorem levRec_self (a : List Char) : levRec a a = 0 := by
  induction a with
  | nil => simp
  | cons x xs ih => simp [levRec_cons_cons, ih]

theorem levRec_le_max (a b : List Char) : levRec a b ≤ max a.length b.length := by
  induction a generalizing b with
  | nil => simp
  | cons x xs ih =>
    induction b with
    | nil => simp
    | cons y ys ihb =>
      rw [levRec_cons_cons]
      have hx : levRec xs ys ≤ max xs.length ys.length := ih ys
      have hy : levRec xs (y :: ys) ≤ max xs.length (y :: ys).length := ih (y :: ys)
      have hz : levRec (x :: xs) ys ≤ max (x :: xs).length ys.length := ihb
      have hind := ind_le_one x y
      simp only [List.length_cons] at *
      omega

/-!
Correctness of the DP matrix: each row `j` of the source's matrix holds
`levRec (s1 upto i) (s2 upto j)` at column `i`.
-/

theorem rowAux_spec (c2 : Char) (chars : List Char) :
    ∀ u p : List Char,
      rowAux c2 chars (levRec u p) (rowSpec u chars p) (levRec u (p ++ [c2])) =
        rowSpec u chars (p ++ [c2]) := by
  induction chars with
  | nil => intro u p; simp [rowAux, rowSpec]
  | cons x xs ih =>
    intro u p
    simp only [rowSpec, rowAux]
    have hv :
        min (levRec u (p ++ [c2]) + 1)
          (min (levRec (u ++ [x]) p + 1) (levRec u p + ind x c2)) =
        levRec (u ++ [x]) (p ++ [c2]) := by
      rw [levRec_snoc_snoc]
      omega
    rw [hv]
    exact congrArg (levRec (u ++ [x]) (p ++ [c2]) :: ·) (ih (u ++ [x]) p)

theorem nextRow_spec (s1 : List Char) (c2 : Char) (p : List Char) :
    nextRow s1 c2 (p.length + 1) (levRec [] p :: rowSpec [] s1 p) =
      levRec [] (p ++ [c2]) :: rowSpec [] s1 (p ++ [c2]) := by
  have h := rowAux_spec c2 s1 [] p
  simp only [levRec_nil, List.length_append, List.length_singleton] at h
  simp only [nextRow, levRec_nil, List.length_append, List.length_singleton]
  exact congrArg ((p.length + 1) :: ·) h

theorem rowSpec_nil_arg (chars : List Char) :
    ∀ u : List Char, rowSpec u chars [] = (List.range chars.length).map (u.length + · + 1) := by
  induction chars with
  | nil => intro u; simp [rowSpec]
  | cons x xs ih =>
    intro u
    simp only [rowSpec, levRec_nil_right, List.length_append, List.length_singleton,
      List.length_nil, List.length_cons, List.range_succ_eq_map, List.map_cons, List.map_map]
    rw [ih (u ++ [x])]
    simp only [List.length_append, List.length_singleton, List.length_nil]
    congr 1
    all_goals
      first
      | omega
      | (apply List.map_congr_left
         intro i _
         simp only [Function.comp_apply]
         omega)

theorem range_succ_eq_row0 (s1 : List Char) :
    List.range (s1.length + 1) = levRec [] [] :: rowSpec [] s1 [] := by
  rw [List.range_succ_eq_map, rowSpec_nil_arg s1 []]
  simp only [levRec_nil, List.length_nil]
  apply congrArg (0 :: ·)
  apply List.map_congr_left
  intro i _
  omega

theorem fold_rows (s1 : List Char) (rest : List Char) :
    ∀ p : List Char,
      rest.foldl
        (fun (st : ℕ × List ℕ) c2 => (st.1 + 1, nextRow s1 c2 (st.1 + 1) st.2))
        (p.length, levRec [] p :: rowSpec [] s1 p) =
      ((p ++ rest).length, levRec [] (p ++ rest) :: rowSpec [] s1 (p ++ rest)) := by
  induction rest with
  | nil => intro p; simp
  | cons c cs ih =>
    intro p
    rw [List.foldl_cons, nextRow_spec s1 c p]
    have h := ih (p ++ [c])
    simp only [List.length_append, List.length_singleton] at h
    rw [h, Prod.ext_iff]
    refine ⟨?_, ?_⟩
    · simp only [List.length_append, List.length_cons, List.length_nil,
        List.singleton_append]
      omega
    · simp [List.append_assoc]

theorem rowSpec_getLast (chars : List Char) :
    ∀ u p : List Char,
      (levRec u p :: rowSpec u chars p).getLast?.getD 0 = levRec (u ++ chars) p := by
  induction chars with
  | nil => intro u p; simp [rowSpec]
  | cons x xs ih =>
    intro u p
    simp only [rowSpec]
    rw [List.getLast?_cons_cons, ih (u ++ [x]) p]
    congr 1
    simp

/-- The DP matrix of the source computes exactly the reference recurrence. -/
theorem levenshteinDistance_eq_levRec (s1 s2 : List Char) :
    levenshteinDistance s1 s2 = levRec s1 s2 := by
  unfold levenshteinDistance
  rw [range_succ_eq_row0 s1]
  have h := fold_rows s1 s2 []
  simp only [List.length_nil, List.nil_append] at h
  rw [h]
  have h2 := rowSpec_getLast s1 [] s2
  simpa using h2

/-!
The similarity primitive: closed formula, bounds, symmetry.
-/

theorem calculateStringSimilarity_formula (a b : List Char) :
    calculateStringSimilarity a b =
      (if longerLen a b = 0 then (1 : ℚ)
       else ((longerLen a b : ℚ) - (levRec (foldedForm a) (foldedForm b) : ℚ))
            / (longerLen a b : ℚ)) := by
  simp only [calculateStringSimilarity, longerLen, foldedForm]
  generalize trimList (List.map jsLower a) = s1
  generalize trimList (List.map jsLower b) = s2
  by_cases heq : s1 = s2
  · subst heq
    rw [if_pos rfl]
    simp only [max_self, levRec_self, Nat.cast_zero, sub_zero]
    by_cases h0 : s1.length = 0
    · rw [if_pos h0]
    · rw [if_neg h0, div_self (Nat.cast_ne_zero.mpr h0)]
  · rw [if_neg heq]
    by_cases hlen : s1.length > s2.length
    · simp only [if_pos hlen]
      have hmax : max s1.length s2.length = s1.length := Nat.max_eq_left (le_of_lt hlen)
      have h0 : ¬ s1.length = 0 := by omega
      rw [hmax, if_neg h0, if_neg h0, levenshteinDistance_eq_levRec]
    · simp only [if_neg hlen]
      have hle : s1.length ≤ s2.length := by omega
      have hmax : max s1.length s2.length = s2.length := Nat.max_eq_right hle
      have h0 : ¬ s2.length = 0 := by
        intro h0
        apply heq
        have h1 : s1.length = 0 := by omega
        rw [List.length_eq_zero] at h0 h1
        rw [h0, h1]
      rw [hmax, if_neg h0, if_neg h0, levenshteinDistance_eq_levRec, levRec_symm s2 s1]

theorem levRec_le_longerLen (a b : List Char) :
    levRec (foldedForm a) (foldedForm b) ≤ longerLen a b :=
  levRec_le_max _ _

theorem calculateStringSimilarity_nonneg (a b : List Char) :
    0 ≤ calculateStringSimilarity a b := by
  rw [calculateStringSimilarity_formula]
  by_cases h0 : longerLen a b = 0
  · rw [if_pos h0]; norm_num
  · rw [if_neg h0]
    apply div_nonneg
    · have hd : levRec (foldedForm a) (foldedForm b) ≤ longerLen a b :=
        levRec_le_longerLen a b
      have hd' : (levRec (foldedForm a) (foldedForm b) : ℚ) ≤ (longerLen a b : ℚ) := by
        exact_mod_cast hd
      linarith
    · exact_mod_cast Nat.zero_le _

theorem calculateStringSimilarity_le_one (a b : List Char) :
    calculateStringSimilarity a b ≤ 1 := by
  rw [calculateStringSimilarity_formula]
  by_cases h0 : longerLen a b = 0
  · rw [if_pos h0]
  · rw [if_neg h0]
    have hLpos : (0 : ℚ) < (longerLen a b : ℚ) := by
      exact_mod_cast Nat.pos_of_ne_zero h0
    rw [div_le_one hLpos]
    have hnn : (0 : ℚ) ≤ (levRec (foldedForm a) (foldedForm b) : ℚ) := by positivity
    linarith

theorem longerLen_symm (a b : List Char) : longerLen a b = longerLen b a :=
  Nat.max_comm _ _

/-!
Matcher lemmas: score bounds and a complete characterisation of the
best-candidate fold.
-/

theorem companyScore_nonneg (ns : List Char) (c : Company) : 0 ≤ companyScore ns c := by
  simp only [companyScore]
  split
  · norm_num
  · split
    · exact le_trans (by norm_num : (0 : ℚ) ≤ 9/10) (le_max_right _ _)
    · exact calculateStringSimilarity_nonneg _ _

theorem companyScore_le_one (ns : List Char) (c : Company) : companyScore ns c ≤ 1 := by
  simp only [companyScore]
  split
  · exact le_refl 1
  · split
    · exact max_le (calculateStringSimilarity_le_one _ _) (by norm_num)
    · exact calculateStringSimilarity_le_one _ _

theorem nil_isPrefixOf_true (l : List Char) : List.isPrefixOf ([] : List Char) l = true := by
  cases l <;> rfl

theorem companyScore_of_nil_search (c : Company) :
    9/10 ≤ companyScore [] c := by
  simp only [companyScore]
  split
  · norm_num
  · split
    · exact le_max_right _ _
    · rename_i hpre
      exact absurd (nil_isPrefixOf_true _) hpre

theorem scanBest_snd (f : Company → ℚ) (cs : List Company) :
    ∀ init : Company × ℚ,
      (cs.foldl (fun b c => if f c > b.2 then (c, f c) else b) init).2 =
        cs.foldl (fun m c => max m (f c)) init.2 := by
  induction cs with
  | nil => intro init; rfl
  | cons c cs ih =>
    intro init
    rw [List.foldl_cons, List.foldl_cons, ih]
    have harg : (if f c > init.2 then (c, f c) else init).2 = max init.2 (f c) := by
      split
      · rename_i h
        exact (max_eq_right (le_of_lt h)).symm
      · rename_i h
        exact (max_eq_left (not_lt.mp h)).symm
    rw [harg]

theorem scanBest_cases (f : Company → ℚ) (cs : List Company) :
    ∀ (b0 : Company) (s0 : ℚ),
      (cs.foldl (fun b c => if f c > b.2 then (c, f c) else b) (b0, s0) = (b0, s0) ∧
        ∀ c ∈ cs, f c ≤ s0) ∨
      (∃ pre e suf, cs = pre ++ e :: suf ∧
        cs.foldl (fun b c => if f c > b.2 then (c, f c) else b) (b0, s0) = (e, f e) ∧
        s0 < f e ∧
        (∀ d ∈ pre, f d < f e) ∧
        (∀ d ∈ suf, f d ≤ f e)) := by
  induction cs with
  | nil =>
    intro b0 s0
    left
    exact ⟨rfl, by simp⟩
  | cons c cs ih =>
    intro b0 s0
    by_cases h : f c > s0
    · have hstep : (c :: cs).foldl (fun b c => if f c > b.2 then (c, f c) else b) (b0, s0) =
          cs.foldl (fun b c => if f c > b.2 then (c, f c) else b) (c, f c) := by
        rw [List.foldl_cons, if_pos h]
      rcases ih c (f c) with ⟨hfix, hall⟩ |
        ⟨pre, e, suf, hsplit, hres, hgt, hpre, hsuf⟩
      · right
        refine ⟨[], c, cs, rfl, ?_, h, by simp, ?_⟩
        · rw [hstep, hfix]
        · intro d hd
          exact hall d hd
      · right
        refine ⟨c :: pre, e, suf, by simp [hsplit], ?_, lt_trans h hgt, ?_, hsuf⟩
        · rw [hstep, hres]
        · intro d hd
          rcases List.mem_cons.mp hd with rfl | hd'
          · exact hgt
          · exact hpre d hd'
    · have hstep : (c :: cs).foldl (fun b c => if f c > b.2 then (c, f c) else b) (b0, s0) =
          cs.foldl (fun b c => if f c > b.2 then (c, f c) else b) (b0, s0) := by
        rw [List.foldl_cons, if_neg h]
      have hle : f c ≤ s0 := not_lt.mp h
      rcases ih b0 s0 with ⟨hfix, hall⟩ |
        ⟨pre, e, suf, hsplit, hres, hgt, hpre, hsuf⟩
      · left
        refine ⟨by rw [hstep, hfix], ?_⟩
        intro d hd
        rcases List.mem_cons.mp hd with rfl | hd'
        · exact hle
        · exact hall d hd'
      · right
        refine ⟨c :: pre, e, suf, by simp [hsplit], by rw [hstep, hres], hgt, ?_, hsuf⟩
        intro d hd
        rcases List.mem_cons.mp hd with rfl | hd'
        · exact lt_of_le_of_lt hle hgt
        · exact hpre d hd'

theorem bestFold_snd (ns : List Char) (cs : List Company) (init : Company × ℚ) :
    (bestFold ns init cs).2 =
      cs.foldl (fun m c => max m (companyScore ns c)) init.2 :=
  scanBest_snd (companyScore ns) cs init

theorem bestFold_cases (ns : List Char) (cs : List Company) (b0 : Company) (s0 : ℚ) :
    (bestFold ns (b0, s0) cs = (b0, s0) ∧ ∀ c ∈ cs, companyScore ns c ≤ s0) ∨
    (∃ pre e suf, cs = pre ++ e :: suf ∧
      bestFold ns (b0, s0) cs = (e, companyScore ns e) ∧
      s0 < companyScore ns e ∧
      (∀ d ∈ pre, companyScore ns d < companyScore ns e) ∧
      (∀ d ∈ suf, companyScore ns d ≤ companyScore ns e)) :=
  scanBest_cases (companyScore ns) cs b0 s0

theorem maxScoreOf_eq_foldl (cs : List Company) (t : List Char) :
    maxScoreOf cs t =
      cs.foldl (fun m c => max m (companyScore (normalizeCompanyName t) c)) 0 := rfl

theorem findBestMatch_cons (c0 : Company) (rest : List Company) (t : List Char) :
    findBestMatch (c0 :: rest) t =
      (if (bestFold (normalizeCompanyName t) (c0, 0) (c0 :: rest)).2 ≥ 6/10
       then some (bestFold (normalizeCompanyName t) (c0, 0) (c0 :: rest)).1
       else none) := by
  simp only [findBestMatch]

/-!
Claim theorems.
-/

/-- Claim C3: `calculateStringSimilarity a b` equals
`(len longer - d) / len longer` where `longer` is the longer of the two
case-folded and trimmed strings and `d` is the Levenshtein distance between
them — the least number of single-character insertions, deletions and
substitutions transforming one into the other; when both folded strings are
empty the result is 1. -/
theorem claim_C3 (a b : List Char) :
    IsLeast {n : ℕ | EditSeq (foldedForm a) (foldedForm b) n}
      (levRec (foldedForm a) (foldedForm b)) ∧
    calculateStringSimilarity a b =
      (if longerLen a b = 0 then (1 : ℚ)
       else ((longerLen a b : ℚ) - (levRec (foldedForm a) (foldedForm b) : ℚ))
            / (longerLen a b : ℚ)) :=
  ⟨levRec_isLeast _ _, calculateStringSimilarity_formula a b⟩

/-- Claim C7: over exact rational arithmetic the similarity score always lies
in the closed interval [0, 1]. -/
theorem claim_C7 (a b : List Char) :
    0 ≤ calculateStringSimilarity a b ∧ calculateStringSimilarity a b ≤ 1 :=
  ⟨calculateStringSimilarity_nonneg a b, calculateStringSimilarity_le_one a b⟩

/-- Claim C8: `calculateStringSimilarity` is symmetric in its two
arguments. -/
theorem claim_C8 (a b : List Char) :
    calculateStringSimilarity a b = calculateStringSimilarity b a := by
  rw [calculateStringSimilarity_formula, calculateStringSimilarity_formula,
    longerLen_symm b a, levRec_symm (foldedForm b) (foldedForm a)]

/-- Claim C2: `findBestMatch` returns a candidate iff the list is non-empty
and the maximum computed score reaches the 6/10 threshold (in particular it
returns none on every empty list and whenever no candidate reaches the
threshold), and any returned candidate's computed score is at least 6/10. -/
theorem claim_C2 (companies : List Company) (searchTerm : List Char) :
    ((findBestMatch companies searchTerm).isSome ↔
      companies ≠ [] ∧ 6/10 ≤ maxScoreOf companies searchTerm) ∧
    (∀ c, findBestMatch companies searchTerm = some c →
      6/10 ≤ companyScore (normalizeCompanyName searchTerm) c) := by
  cases companies with
  | nil =>
    constructor
    · simp [findBestMatch]
    · intro c h
      simp [findBestMatch] at h
  | cons c0 rest =>
    have hmax : maxScoreOf (c0 :: rest) searchTerm =
        (bestFold (normalizeCompanyName searchTerm) (c0, 0) (c0 :: rest)).2 := by
      rw [maxScoreOf_eq_foldl]
      exact (bestFold_snd (normalizeCompanyName searchTerm) (c0 :: rest) (c0, 0)).symm
    rw [findBestMatch_cons]
    by_cases hth : (bestFold (normalizeCompanyName searchTerm) (c0, 0) (c0 :: rest)).2 ≥ 6/10
    · rw [if_pos hth]
      constructor
      · constructor
        · intro _
          refine ⟨List.cons_ne_nil c0 rest, ?_⟩
          rw [hmax]
          exact hth
        · intro _
          simp
      · intro c hc
        have hc' : (bestFold (normalizeCompanyName searchTerm) (c0, 0) (c0 :: rest)).1 = c :=
          Option.some.inj hc
        rcases bestFold_cases (normalizeCompanyName searchTerm) (c0 :: rest) c0 0 with
          ⟨hfix, _⟩ | ⟨pre, e, suf, _, hres, _, _, _⟩
        · have hz : (bestFold (normalizeCompanyName searchTerm) (c0, 0) (c0 :: rest)).2 = 0 := by
            rw [hfix]
          rw [hz] at hth
          norm_num at hth
        · have hres1 : (bestFold (normalizeCompanyName searchTerm) (c0, 0) (c0 :: rest)).1 = e := by
            rw [hres]
          have hres2 : (bestFold (normalizeCompanyName searchTerm) (c0, 0) (c0 :: rest)).2 =
              companyScore (normalizeCompanyName searchTerm) e := by
            rw [hres]
          have hec : e = c := hres1.symm.trans hc'
          rw [hres2] at hth
          rw [← hec]
          exact hth
    · rw [if_neg hth]
      constructor
      · constructor
        · intro hs
          simp at hs
        · rintro ⟨_, hle⟩
          rw [hmax] at hle
          exact absurd hle hth
      · intro c hc
        simp at hc

/-- Claim C5: whenever `findBestMatch` returns a candidate, every candidate
strictly before it in input order scores strictly less, and every candidate
after it scores no more: the first candidate reaching the maximum wins and
later equal scores never replace it. -/
theorem claim_C5 (companies : List Company) (searchTerm : List Char) (c : Company)
    (h : findBestMatch companies searchTerm = some c) :
    ∃ pre suf, companies = pre ++ c :: suf ∧
      (∀ d ∈ pre, companyScore (normalizeCompanyName searchTerm) d <
        companyScore (normalizeCompanyName searchTerm) c) ∧
      (∀ d ∈ suf, companyScore (normalizeCompanyName searchTerm) d ≤
        companyScore (normalizeCompanyName searchTerm) c) := by
  cases companies with
  | nil => simp [findBestMatch] at h
  | cons c0 rest =>
    rw [findBestMatch_cons] at h
    by_cases hth : (bestFold (normalizeCompanyName searchTerm) (c0, 0) (c0 :: rest)).2 ≥ 6/10
    · rw [if_pos hth] at h
      have hc' : (bestFold (normalizeCompanyName searchTerm) (c0, 0) (c0 :: rest)).1 = c :=
        Option.some.inj h
      rcases bestFold_cases (normalizeCompanyName searchTerm) (c0 :: rest) c0 0 with
        ⟨hfix, _⟩ | ⟨pre, e, suf, hsplit, hres, _, hpre, hsuf⟩
      · have hz : (bestFold (normalizeCompanyName searchTerm) (c0, 0) (c0 :: rest)).2 = 0 := by
          rw [hfix]
        rw [hz] at hth
        norm_num at hth
      · have hres1 : (bestFold (normalizeCompanyName searchTerm) (c0, 0) (c0 :: rest)).1 = e := by
          rw [hres]
        have hec : e = c := hres1.symm.trans hc'
        subst hec
        exact ⟨pre, suf, hsplit, hpre, hsuf⟩
    · rw [if_neg hth] at h
      simp at h

/-- Claim C9: when the search term normalizes to the empty string, every
candidate is boosted to a score of at least 9/10 (the empty string is a
prefix of every normalized name), so on a non-empty list `findBestMatch`
returns some candidate of the list. -/
theorem claim_C9 (companies : List Company) (searchTerm : List Char)
    (hne : companies ≠ []) (hnil : normalizeCompanyName searchTerm = []) :
    (∀ c ∈ companies, 9/10 ≤ companyScore (normalizeCompanyName searchTerm) c) ∧
    ∃ c ∈ companies, findBestMatch companies searchTerm = some c := by
  have hscore : ∀ c ∈ companies, 9/10 ≤ companyScore (normalizeCompanyName searchTerm) c := by
    intro c _
    rw [hnil]
    exact companyScore_of_nil_search c
  refine ⟨hscore, ?_⟩
  cases companies with
  | nil => exact absurd rfl hne
  | cons c0 rest =>
    rcases bestFold_cases (normalizeCompanyName searchTerm) (c0 :: rest) c0 0 with
      ⟨_, hall⟩ | ⟨pre, e, suf, hsplit, hres, _, _, _⟩
    · have h0 := hall c0 (List.mem_cons_self c0 rest)
      have h9 := hscore c0 (List.mem_cons_self c0 rest)
      linarith
    · have hmem : e ∈ c0 :: rest := by
        rw [hsplit]
        exact List.mem_append_right _ (List.mem_cons_self e suf)
      refine ⟨e, hmem, ?_⟩
      have hres1 : (bestFold (normalizeCompanyName searchTerm) (c0, 0) (c0 :: rest)).1 = e := by
        rw [hres]
      have hres2 : (bestFold (normalizeCompanyName searchTerm) (c0, 0) (c0 :: rest)).2 =
          companyScore (normalizeCompanyName searchTerm) e := by
        rw [hres]
      have hth2 : (bestFold (normalizeCompanyName searchTerm) (c0, 0) (c0 :: rest)).2 ≥ 6/10 := by
        rw [hres2]
        exact le_trans (by norm_num : (6 : ℚ)/10 ≤ 9/10) (hscore e hmem)
      rw [findBestMatch_cons, if_pos hth2, hres1]

/-- Claim C10: a returned candidate is always an element of the supplied
candidate list, unchanged. -/
theorem claim_C10 (companies : List Company) (searchTerm : List Char) (c : Company)
    (h : findBestMatch companies searchTerm = some c) : c ∈ companies := by
  cases companies with
  | nil => simp [findBestMatch] at h
  | cons c0 rest =>
    rw [findBestMatch_cons] at h
    by_cases hth : (bestFold (normalizeCompanyName searchTerm) (c0, 0) (c0 :: rest)).2 ≥ 6/10
    · rw [if_pos hth] at h
      have hc' : (bestFold (normalizeCompanyName searchTerm) (c0, 0) (c0 :: rest)).1 = c :=
        Option.some.inj h
      rcases bestFold_cases (normalizeCompanyName searchTerm) (c0 :: rest) c0 0 with
        ⟨hfix, _⟩ | ⟨pre, e, suf, hsplit, hres, _, _, _⟩
      · have hres1 : (bestFold (normalizeCompanyName searchTerm) (c0, 0) (c0 :: rest)).1 = c0 := by
          rw [hfix]
        have hc0 : c0 = c := hres1.symm.trans hc'
        rw [← hc0]
        exact List.mem_cons_self c0 rest
      · have hres1 : (bestFold (normalizeCompanyName searchTerm) (c0, 0) (c0 :: rest)).1 = e := by
          rw [hres]
        have hec : e = c := hres1.symm.trans hc'
        rw [← hec, hsplit]
        exact List.mem_append_right _ (List.mem_cons_self e suf)
    · rw [if_neg hth] at h
      simp at h

/-!
Claim C1: the source normalizer coincides with the amended-specification
model.
-/

theorem patMatches_eq_zip_all :
    ∀ ps cs : List Char, ps.length = cs.length →
      patMatches ps cs = ((List.zip ps cs).all fun pc => patCharMatches pc.1 pc.2) := by
  intro ps
  induction ps with
  | nil =>
    intro cs h
    cases cs with
    | nil => rfl
    | cons c cs => simp at h
  | cons p ps ih =>
    intro cs h
    cases cs with
    | nil => simp at h
    | cons c cs =>
      simp only [List.length_cons, Nat.add_right_cancel_iff] at h
      simp only [patMatches, List.zip_cons_cons, List.all_cons]
      rw [ih cs h]

theorem isWordChar_of_jsLower_lower (p c : Char) (h1 : 97 ≤ p.toNat) (h2 : p.toNat ≤ 122)
    (h : jsLower c = p) : isWordChar c = true := by
  unfold jsLower at h
  split at h
  · rename_i hc
    simp only [isWordChar, decide_eq_true_eq]
    right
    left
    omega
  · subst h
    simp only [isWordChar, decide_eq_true_eq]
    left
    exact ⟨h1, h2⟩

theorem suffixes_first_lower :
    suffixes.all (fun suf =>
      match suf with
      | [] => false
      | c :: _ => decide (97 ≤ c.toNat ∧ c.toNat ≤ 122)) = true := by
  decide

theorem suffix_shape (suf : List Char) (hs : suf ∈ suffixes) :
    ∃ p ps, suf = p :: ps ∧ 97 ≤ p.toNat ∧ p.toNat ≤ 122 := by
  have hall := suffixes_first_lower
  rw [List.all_eq_true] at hall
  have h := hall suf hs
  cases suf with
  | nil => simp at h
  | cons p ps =>
    have h' : 97 ≤ p.toNat ∧ p.toNat ≤ 122 := of_decide_eq_true h
    exact ⟨p, ps, rfl, h'.1, h'.2⟩

theorem head_word_of_patMatches (suf : List Char) (hs : suf ∈ suffixes)
    (tl : List Char) (hm : patMatches suf tl = true) : isWordOpt tl.head? = true := by
  obtain ⟨p, ps, rfl, h1, h2⟩ := suffix_shape suf hs
  cases tl with
  | nil => simp [patMatches] at hm
  | cons c cs =>
    simp only [patMatches, Bool.and_eq_true] at hm
    have hpc := hm.1
    unfold patCharMatches at hpc
    have hpd : ¬ p = '.' := by
      intro hp
      have h46 : p.toNat = 46 := by
        rw [hp]
        decide
      omega
    rw [if_neg hpd] at hpc
    have hlow : jsLower c = p := by
      exact eq_of_beq hpc
    simp only [List.head?_cons, isWordOpt]
    exact isWordChar_of_jsLower_lower p c h1 h2 hlow

theorem getLast?_drop_lt :
    ∀ (s : List Char) (n : ℕ), n < s.length → (s.drop n).getLast? = s.getLast? := by
  intro s
  induction s with
  | nil => intro n h; simp at h
  | cons c cs ih =>
    intro n h
    cases n with
    | zero => rfl
    | succ n =>
      simp only [List.length_cons, Nat.succ_lt_succ_iff] at h
      simp only [List.drop_succ_cons]
      rw [ih n h]
      cases cs with
      | nil => simp at h
      | cons d ds => simp [List.getLast?_cons_cons]

theorem stripOnce_eq_spec (suf : List Char) (hs : suf ∈ suffixes) (s : List Char) :
    stripOnce suf s = stripOnceSpec suf s := by
  simp only [stripOnce, stripOnceSpec]
  by_cases hk : suf.length ≤ s.length
  · have hlen : (s.drop (s.length - suf.length)).length = suf.length := by
      simp only [List.length_drop]
      omega
    by_cases hm : patMatches suf (s.drop (s.length - suf.length)) = true
    · have hzip : ((List.zip suf (s.drop (s.length - suf.length))).all
          fun pc => patCharMatches pc.1 pc.2) = true := by
        rw [← patMatches_eq_zip_all _ _ hlen.symm]
        exact hm
      have hhead : isWordOpt (s.drop (s.length - suf.length)).head? = true :=
        head_word_of_patMatches suf hs _ hm
      obtain ⟨p, ps, hshape, _, _⟩ := suffix_shape suf hs
      have hk1 : 1 ≤ suf.length := by
        rw [hshape]
        simp
      have hlt : s.length - suf.length < s.length := by omega
      have hlast : (s.drop (s.length - suf.length)).getLast? = s.getLast? :=
        getLast?_drop_lt s _ hlt
      apply if_congr ?_ rfl rfl
      constructor
      · rintro ⟨_, _, hxor, hend⟩
        refine ⟨hk, hzip, ?_, ?_⟩
        · rw [hhead] at hxor
          cases hfr : (s.take (s.length - suf.length)).getLast? with
          | none => rfl
          | some d =>
            rw [hfr] at hxor
            simp only [isWordOpt] at hxor
            have : isWordChar d = false := by
              by_contra hcon
              have : isWordChar d = true := by
                cases hb : isWordChar d with
                | false => exact absurd hb hcon
                | true => rfl
            -- simplify: derive directly
              exact hxor (by rw [this])
            simp [this]
        · rw [hlast] at hend
          cases hsl : s.getLast? with
          | none =>
            rw [hsl] at hend
            simp [isWordOpt] at hend
          | some d =>
            rw [hsl] at hend
            simpa [isWordOpt] using hend
      · rintro ⟨_, _, hfr, hend⟩
        refine ⟨hk, hm, ?_, ?_⟩
        · rw [hhead]
          cases hfl : (s.take (s.length - suf.length)).getLast? with
          | none => simp [isWordOpt]
          | some d =>
            rw [hfl] at hfr
            simp only at hfr
            have hd : isWordChar d = false := by
              cases hb : isWordChar d with
              | false => rfl
              | true => rw [hb] at hfr; simp at hfr
            simp [isWordOpt, hd]
        · rw [hlast]
          cases hsl : s.getLast? with
          | none => rw [hsl] at hend; simp at hend
          | some d =>
            rw [hsl] at hend
            simpa [isWordOpt] using hend
    · have hm' : patMatches suf (s.drop (s.length - suf.length)) = false :=
        Bool.not_eq_true _ ▸ (by simpa using hm)
      have hzip' : ((List.zip suf (s.drop (s.length - suf.length))).all
          fun pc => patCharMatches pc.1 pc.2) = false := by
        rw [← patMatches_eq_zip_all _ _ hlen.symm]
        exact hm'
      rw [if_neg, if_neg]
      · rintro ⟨_, hz, _⟩
        rw [hzip'] at hz
        exact Bool.false_ne_true hz
      · rintro ⟨_, hz, _⟩
        exact hm (by exact hz)
  · rw [if_neg, if_neg]
    · rintro ⟨h, _⟩
      exact hk h
    · rintro ⟨h, _⟩
      exact hk h

theorem foldl_congr_mem (l : List (List Char)) (f g : List Char → List Char → List Char)
    (h : ∀ b ∈ l, ∀ a, f a b = g a b) : ∀ a, l.foldl f a = l.foldl g a := by
  induction l with
  | nil => intro a; rfl
  | cons x xs ih =>
    intro a
    simp only [List.foldl_cons]
    rw [h x (List.mem_cons_self x xs) a]
    exact ih (fun b hb a => h b (List.mem_cons.mpr (Or.inr hb)) a) (g a x)

/-- Claim C1 (amended): `normalizeCompanyName` lowercases and trims, then
makes a single pass through the suffix vocabulary in its listed order — each
step stripping at most one end-anchored, word-boundary-delimited match of the
suffix pattern, where `.` inside a suffix matches any single non-line-break
character — re-trimming after each step, and finally collapsing whitespace
runs; it does not iterate the stripping to a fixpoint and does not treat the
periods in the vocabulary literally. -/
theorem claim_C1 (name : List Char) : normalizeCompanyName name = normalizeAmendedSpec name := by
  unfold normalizeCompanyName normalizeAmendedSpec stripTrimPass
  exact congrArg collapseWS
    (foldl_congr_mem suffixes _ _
      (fun suf hsuf acc => by rw [stripOnce_eq_spec suf hsuf acc])
      (List.map jsLower (trimList name)))

/-!
Claim C4: idempotence machinery: how the pieces of the normalizer behave on
already-normalized strings.
-/

theorem collapseAux_cons_ws_false {c : Char} (cs : List Char) (h : isJsWS c = true) :
    collapseAux false (c :: cs) = ' ' :: collapseAux true cs := by
  simp [collapseAux, h]

theorem collapseAux_cons_ws_true {c : Char} (cs : List Char) (h : isJsWS c = true) :
    collapseAux true (c :: cs) = collapseAux true cs := by
  simp [collapseAux, h]

theorem collapseAux_cons_not {c : Char} (flag : Bool) (cs : List Char) (h : isJsWS c = false) :
    collapseAux flag (c :: cs) = c :: collapseAux false cs := by
  simp [collapseAux, h]

theorem collapseAux_triple :
    ∀ l : List Char,
      collapseAux false (collapseAux false l) = collapseAux false l ∧
      collapseAux false (collapseAux true l) = collapseAux true l ∧
      collapseAux true (collapseAux true l) = collapseAux true l := by
  intro l
  induction l with
  | nil => exact ⟨rfl, rfl, rfl⟩
  | cons c cs ih =>
    obtain ⟨ih1, ih2, ih3⟩ := ih
    by_cases hc : isJsWS c = true
    · have hsp : isJsWS ' ' = true := by decide
      refine ⟨?_, ?_, ?_⟩
      · rw [collapseAux_cons_ws_false cs hc, collapseAux_cons_ws_false _ hsp, ih3]
      · rw [collapseAux_cons_ws_true cs hc, ih2]
      · rw [collapseAux_cons_ws_true cs hc, ih3]
    · have hc' : isJsWS c = false := by
        cases hb : isJsWS c with
        | false => rfl
        | true => exact absurd hb hc
      refine ⟨?_, ?_, ?_⟩
      · rw [collapseAux_cons_not false cs hc', collapseAux_cons_not false _ hc', ih1]
      · rw [collapseAux_cons_not true cs hc', collapseAux_cons_not false _ hc', ih1]
      · rw [collapseAux_cons_not true cs hc', collapseAux_cons_not true _ hc', ih1]

theorem collapseWS_idem (z : List Char) : collapseWS (collapseWS z) = collapseWS z :=
  (collapseAux_triple z).1

theorem trimList_eq_rdrop (s : List Char) :
    trimList s = List.rdropWhile isJsWS (s.dropWhile isJsWS) := rfl

theorem isPrefix_get_zero {l₁ l₂ : List Char} (h : l₁ <+: l₂) (h1 : 0 < l₁.length)
    (h2 : 0 < l₂.length) : l₂.get ⟨0, h2⟩ = l₁.get ⟨0, h1⟩ := by
  obtain ⟨r, rfl⟩ := h
  cases l₁ with
  | nil => simp at h1
  | cons a as => rfl

theorem trimList_idem (s : List Char) : trimList (trimList s) = trimList s := by
  rw [trimList_eq_rdrop, trimList_eq_rdrop]
  have h1 : (List.rdropWhile isJsWS (s.dropWhile isJsWS)).dropWhile isJsWS =
      List.rdropWhile isJsWS (s.dropWhile isJsWS) := by
    rw [List.dropWhile_eq_self_iff]
    intro hl
    have hpre : List.rdropWhile isJsWS (s.dropWhile isJsWS) <+: s.dropWhile isJsWS :=
      List.rdropWhile_prefix _ _
    have h2 : 0 < (s.dropWhile isJsWS).length :=
      lt_of_lt_of_le hl (hpre.length_le)
    rw [← isPrefix_get_zero hpre hl h2]
    exact (List.dropWhile_eq_self_iff.mp (List.dropWhile_idempotent (l := s) (p := isJsWS))) h2
  rw [h1, List.rdropWhile_idempotent]

theorem trimmed_foldl (l : List (List Char)) :
    ∀ a : List Char, l ≠ [] →
      trimList (l.foldl (fun acc suf => trimList (stripOnce suf acc)) a) =
        l.foldl (fun acc suf => trimList (stripOnce suf acc)) a := by
  induction l with
  | nil => intro a h; exact absurd rfl h
  | cons x xs ih =>
    intro a _
    simp only [List.foldl_cons]
    cases hxs : xs with
    | nil =>
      simp only [List.foldl_nil]
      exact trimList_idem _
    | cons y ys =>
      rw [← hxs]
      exact ih _ (by rw [hxs]; exact List.cons_ne_nil y ys)

theorem stripTrimPass_trimmed (s : List Char) :
    trimList (stripTrimPass s) = stripTrimPass s := by
  unfold stripTrimPass
  apply trimmed_foldl
  simp [suffixes]

theorem jsLower_idem (c : Char) : jsLower (jsLower c) = jsLower c := by
  unfold jsLower
  by_cases h : 65 ≤ c.toNat ∧ c.toNat ≤ 90
  · rw [if_pos h]
    have hv : (c.toNat + 32).isValidChar := Or.inl (by omega)
    have ht : (Char.ofNat (c.toNat + 32)).toNat = c.toNat + 32 := by
      simp [Char.ofNat, hv]
      rfl
    rw [ht, if_neg (by omega)]
  · rw [if_neg h, if_neg h]

theorem mem_trimList_subset {c : Char} {l : List Char} (hc : c ∈ trimList l) : c ∈ l := by
  unfold trimList at hc
  have h1 := List.mem_reverse.mp hc
  have h2 := (List.dropWhile_sublist (l := (l.dropWhile isJsWS).reverse) isJsWS).subset h1
  have h3 := List.mem_reverse.mp h2
  exact (List.dropWhile_sublist (l := l) isJsWS).subset h3

theorem mem_stripOnce_subset {c : Char} (suf : List Char) {s : List Char}
    (hc : c ∈ stripOnce suf s) : c ∈ s := by
  simp only [stripOnce] at hc
  split at hc
  · exact List.take_subset _ _ hc
  · exact hc

theorem mem_stripTrimPass_subset {c : Char} {s : List Char}
    (hc : c ∈ stripTrimPass s) : c ∈ s := by
  unfold stripTrimPass at hc
  have haux : ∀ (l : List (List Char)) (a : List Char),
      c ∈ l.foldl (fun acc suf => trimList (stripOnce suf acc)) a → c ∈ a := by
    intro l
    induction l with
    | nil => intro a h; exact h
    | cons x xs ih =>
      intro a h
      simp only [List.foldl_cons] at h
      exact mem_stripOnce_subset x (mem_trimList_subset (ih _ h))
  exact haux suffixes _ hc

theorem mem_collapseAux {c : Char} :
    ∀ (l : List Char) (flag : Bool), c ∈ collapseAux flag l → c = ' ' ∨ c ∈ l := by
  intro l
  induction l with
  | nil => intro flag h; simp [collapseAux] at h
  | cons d ds ih =>
    intro flag h
    by_cases hd : isJsWS d = true
    · cases flag with
      | true =>
        rw [collapseAux_cons_ws_true ds hd] at h
        rcases ih true h with h' | h'
        · exact Or.inl h'
        · exact Or.inr (List.mem_cons.mpr (Or.inr h'))
      | false =>
        rw [collapseAux_cons_ws_false ds hd] at h
        rcases List.mem_cons.mp h with h' | h'
        · exact Or.inl h'
        · rcases ih true h' with h'' | h''
          · exact Or.inl h''
          · exact Or.inr (List.mem_cons.mpr (Or.inr h''))
    · have hd' : isJsWS d = false := by
        cases hb : isJsWS d with
        | false => rfl
        | true => exact absurd hb hd
      rw [collapseAux_cons_not flag ds hd'] at h
      rcases List.mem_cons.mp h with h' | h'
      · exact Or.inr (List.mem_cons.mpr (Or.inl h'))
      · rcases ih false h' with h'' | h''
        · exact Or.inl h''
        · exact Or.inr (List.mem_cons.mpr (Or.inr h''))

theorem fixed_chars_of_normalize (x : List Char) :
    ∀ c ∈ normalizeCompanyName x, jsLower c = c := by
  intro c hc
  unfold normalizeCompanyName collapseWS at hc
  rcases mem_collapseAux _ _ hc with h | h
  · rw [h]
    decide
  · have h2 := mem_stripTrimPass_subset h
    rcases List.mem_map.mp h2 with ⟨d, _, rfl⟩
    exact jsLower_idem d

theorem map_jsLower_normalize (x : List Char) :
    List.map jsLower (normalizeCompanyName x) = normalizeCompanyName x := by
  have h := fixed_chars_of_normalize x
  calc List.map jsLower (normalizeCompanyName x)
      = List.map id (normalizeCompanyName x) := List.map_congr_left h
    _ = normalizeCompanyName x := List.map_id _

theorem bool_eq_false_of_not {b : Bool} (h : ¬ b = true) : b = false := by
  cases b with
  | false => rfl
  | true => exact absurd rfl h

theorem dropWhile_eq_self_of_trim {t : List Char} (h : trimList t = t) :
    t.dropWhile isJsWS = t := by
  have hlen : t.length ≤ (t.dropWhile isJsWS).length := by
    calc t.length = (trimList t).length := by rw [h]
    _ ≤ (t.dropWhile isJsWS).length := by
        rw [trimList_eq_rdrop]
        exact (List.rdropWhile_prefix _ _).length_le
  exact (List.dropWhile_sublist _).eq_of_length_le hlen

theorem rdropWhile_eq_self_of_trim {t : List Char} (h : trimList t = t) :
    List.rdropWhile isJsWS t = t := by
  have h2 := h
  rw [trimList_eq_rdrop, dropWhile_eq_self_of_trim h] at h2
  exact h2

theorem collapseAux_getLast?_eq :
    ∀ (l : List Char) (flag : Bool),
      (∀ c, l.getLast? = some c → isJsWS c = false) →
      (collapseAux flag l).getLast? = l.getLast? := by
  intro l
  induction l with
  | nil => intro flag _; rfl
  | cons d ds ih =>
    intro flag h
    cases ds with
    | nil =>
      have hd := h d (by simp)
      rw [collapseAux_cons_not flag [] hd]
      rfl
    | cons e es =>
      have hlast : (d :: e :: es).getLast? = (e :: es).getLast? := List.getLast?_cons_cons
      have h' : ∀ c, (e :: es).getLast? = some c → isJsWS c = false := by
        intro c hcc
        exact h c (by rw [hlast]; exact hcc)
      by_cases hd : isJsWS d = true
      · cases flag with
        | true =>
          rw [collapseAux_cons_ws_true _ hd, ih true h', hlast]
        | false =>
          rw [collapseAux_cons_ws_false _ hd, hlast]
          have hA := ih true h'
          cases hAe : collapseAux true (e :: es) with
          | nil =>
            rw [hAe] at hA
            exact absurd hA.symm (by simp)
          | cons a as =>
            rw [hAe] at hA
            rw [List.getLast?_cons_cons]
            exact hA
      · have hd' : isJsWS d = false := bool_eq_false_of_not hd
        rw [collapseAux_cons_not flag _ hd', hlast]
        have hA := ih false h'
        cases hAe : collapseAux false (e :: es) with
        | nil =>
          rw [hAe] at hA
          exact absurd hA.symm (by simp)
        | cons a as =>
          rw [hAe] at hA
          rw [List.getLast?_cons_cons]
          exact hA

theorem dropWhile_collapseWS (t : List Char) (ht : t.dropWhile isJsWS = t) :
    (collapseWS t).dropWhile isJsWS = collapseWS t := by
  cases t with
  | nil => rfl
  | cons c cs =>
    have h0 : 0 < (c :: cs).length := by simp
    have hc : isJsWS c = false := by
      have hget := List.dropWhile_eq_self_iff.mp ht h0
      exact bool_eq_false_of_not (by simpa using hget)
    show (collapseAux false (c :: cs)).dropWhile isJsWS = collapseAux false (c :: cs)
    rw [collapseAux_cons_not false cs hc]
    simp [List.dropWhile_cons, hc]

theorem getLast_not_ws_of_trim {t : List Char} (ht : trimList t = t) :
    ∀ c, t.getLast? = some c → isJsWS c = false := by
  intro c hcc
  have htne : t ≠ [] := by
    intro h0
    rw [h0] at hcc
    simp at hcc
  have hnot := (List.rdropWhile_eq_self_iff.mp (rdropWhile_eq_self_of_trim ht)) htne
  have hgl : t.getLast? = some (t.getLast htne) := List.getLast?_eq_getLast t htne
  rw [hgl] at hcc
  have hc := Option.some.inj hcc
  rw [← hc]
  exact bool_eq_false_of_not hnot

theorem trimList_normalize (x : List Char) :
    trimList (normalizeCompanyName x) = normalizeCompanyName x := by
  have ht : trimList (stripTrimPass (List.map jsLower (trimList x))) =
      stripTrimPass (List.map jsLower (trimList x)) := stripTrimPass_trimmed _
  have hgoal : normalizeCompanyName x =
      collapseWS (stripTrimPass (List.map jsLower (trimList x))) := rfl
  rw [hgoal, trimList_eq_rdrop,
    dropWhile_collapseWS _ (dropWhile_eq_self_of_trim ht),
    List.rdropWhile_eq_self_iff]
  intro hl
  have hpres : (collapseWS (stripTrimPass (List.map jsLower (trimList x)))).getLast? =
      (stripTrimPass (List.map jsLower (trimList x))).getLast? :=
    collapseAux_getLast?_eq _ false (getLast_not_ws_of_trim ht)
  have hgl : (collapseWS (stripTrimPass (List.map jsLower (trimList x)))).getLast? =
      some ((collapseWS (stripTrimPass (List.map jsLower (trimList x)))).getLast hl) :=
    List.getLast?_eq_getLast _ hl
  have hsome : (stripTrimPass (List.map jsLower (trimList x))).getLast? =
      some ((collapseWS (stripTrimPass (List.map jsLower (trimList x)))).getLast hl) := by
    rw [← hpres, hgl]
  have := getLast_not_ws_of_trim ht _ hsome
  rw [this]
  simp

/-- Claim C4 (amended): `normalizeCompanyName` is idempotent on every input
whose normalized form the suffix-stripping pass leaves unchanged; the
counterexample shows the unconditional statement fails when the normalized
form still ends in an earlier-listed suffix. -/
theorem claim_C4 (x : List Char)
    (h : stripTrimPass (normalizeCompanyName x) = normalizeCompanyName x) :
    normalizeCompanyName (normalizeCompanyName x) = normalizeCompanyName x := by
  have htrim := trimList_normalize x
  have hlower := map_jsLower_normalize x
  show collapseWS (stripTrimPass (List.map jsLower (trimList (normalizeCompanyName x)))) =
    normalizeCompanyName x
  rw [htrim, hlower, h]
  show collapseWS (collapseWS (stripTrimPass (List.map jsLower (trimList x)))) =
    collapseWS (stripTrimPass (List.map jsLower (trimList x)))
  exact collapseWS_idem _

/-!
Concrete evaluations.  Batteries marks the rational-number operations
irreducible; evaluation of the matcher on concrete inputs needs them to
unfold, so their default reducibility is restored here, after all symbolic
proofs.
-/

set_option allowUnsafeReducibility true

attribute [local semireducible] Rat.inv Rat.sub Rat.mul Rat.add Rat.ofScientific

/-- Claim C1 counterexample: on "acme inc ltd" the source's single ordered
pass strips only "ltd" and leaves "acme inc", while the claimed
strip-until-no-suffix-remains procedure reaches "acme". -/
theorem claim_C1_counterexample :
    normalizeCompanyName "acme inc ltd".data = "acme inc".data ∧
    normalizeClaimed "acme inc ltd".data = "acme".data ∧
    normalizeCompanyName "acme inc ltd".data ≠ normalizeClaimed "acme inc ltd".data := by
  decide

/-- Claim C4 counterexample: normalizing "acme inc ltd" gives "acme inc", and
normalizing again gives "acme", so the normalizer is not idempotent. -/
theorem claim_C4_counterexample :
    normalizeCompanyName (normalizeCompanyName "acme inc ltd".data) ≠
      normalizeCompanyName "acme inc ltd".data := by
  decide

/-- Concrete instance of claim C4 (amended): "Acme Inc" normalizes to "acme",
which the stripping pass leaves unchanged, so normalization is idempotent
there. -/
theorem claim_C4_witness :
    stripTrimPass (normalizeCompanyName "Acme Inc".data) =
      normalizeCompanyName "Acme Inc".data ∧
    normalizeCompanyName (normalizeCompanyName "Acme Inc".data) =
      normalizeCompanyName "Acme Inc".data :=
  ⟨by decide, claim_C4 "Acme Inc".data (by decide)⟩

/-- Claim C6: the code evaluated at the claim's own example: "acme corp"
normalizes to "acme" as claimed, but "Acme Corp." keeps its suffix — the
trailing period defeats the end-anchored word-boundary pattern — so the two
normal forms differ. -/
theorem claim_C6 :
    normalizeCompanyName "Acme Corp.".data = "acme corp.".data ∧
    normalizeCompanyName "acme corp".data = "acme".data ∧
    normalizeCompanyName "Acme Corp.".data ≠ normalizeCompanyName "acme corp".data := by
  decide

/-- Concrete instance of claim C2: a single exact-matching candidate is
accepted, so its computed score is at least the threshold. -/
theorem claim_C2_witness :
    6/10 ≤ companyScore (normalizeCompanyName "Acme".data)
      ⟨"1".data, "Acme Corporation".data, none⟩ :=
  (claim_C2 [⟨"1".data, "Acme Corporation".data, none⟩] "Acme".data).2
    ⟨"1".data, "Acme Corporation".data, none⟩ (by decide)

/-- Concrete instance of claim C5: two candidates with identical names score
exactly equal and the first of the two is the one returned. -/
theorem claim_C5_witness :
    ∃ pre suf,
      [(⟨"1".data, "acme".data, none⟩ : Company), ⟨"2".data, "acme".data, none⟩] =
        pre ++ (⟨"1".data, "acme".data, none⟩ : Company) :: suf ∧
      (∀ d ∈ pre, companyScore (normalizeCompanyName "acme".data) d <
        companyScore (normalizeCompanyName "acme".data) ⟨"1".data, "acme".data, none⟩) ∧
      (∀ d ∈ suf, companyScore (normalizeCompanyName "acme".data) d ≤
        companyScore (normalizeCompanyName "acme".data) ⟨"1".data, "acme".data, none⟩) :=
  claim_C5 [⟨"1".data, "acme".data, none⟩, ⟨"2".data, "acme".data, none⟩] "acme".data
    ⟨"1".data, "acme".data, none⟩ (by decide)

/-- Concrete instance of claim C9: the search term "Inc" normalizes to the
empty string, yet the single dissimilar candidate is matched. -/
theorem claim_C9_witness :
    (∀ c ∈ [(⟨"1".data, "Zylo Systems".data, none⟩ : Company)],
      9/10 ≤ companyScore (normalizeCompanyName "Inc".data) c) ∧
    ∃ c ∈ [(⟨"1".data, "Zylo Systems".data, none⟩ : Company)],
      findBestMatch [⟨"1".data, "Zylo Systems".data, none⟩] "Inc".data = some c :=
  claim_C9 [⟨"1".data, "Zylo Systems".data, none⟩] "Inc".data (by decide) (by decide)

/-- Concrete instance of claim C10: the record returned for an exact match is
the supplied record itself. -/
theorem claim_C10_witness :
    (⟨"7".data, "acme".data, none⟩ : Company) ∈
      [(⟨"7".data, "acme".data, none⟩ : Company)] :=
  claim_C10 [⟨"7".data, "acme".data, none⟩] "acme".data
    ⟨"7".data, "acme".data, none⟩ (by decide)


end HubspotMatch
